import Mathlib

/-! Shallow embedding of the subtitle-indexing core of `immersion-whisper`:
`src/immersion_whisper/core/sub_processor.py` (class `SubtitleProcessor`),
`src/immersion_whisper/database/models.py` (the peewee models) and
`src/immersion_whisper/database/setup.py` (triggers and reset).

Machine conventions: SQLite row ids are natural numbers.  Buffered time
offsets are the values `round(x, 3)` produced by `add()` — exact multiples
of a millisecond — and are modelled as integer counts of milliseconds.  The
`starts_at`/`ends_at` columns are `pw.IntegerField()`, and peewee adapts the
buffered float with Python `int()`, truncating toward zero: stored offsets
are whole seconds.  The natural-key dictionary compares a buffered float
with a stored integer numerically, i.e. a buffered offset of `m`
milliseconds equals a stored offset of `n` seconds exactly when
`m = 1000 * n`.  The spaCy pipeline and `random.choice` are external
capabilities and enter as function parameters. -/

namespace ImmersionWhisper

/-- A row of the `subtitle` table (`models.py`, class `Subtitle`).
`starts_at` and `ends_at` are `IntegerField` columns: they hold the buffered
float offsets truncated by Python `int()` to whole seconds. -/
structure Subtitle where
  id : Nat
  text : String
  episode_number : Int
  starts_at : Int
  ends_at : Int
deriving DecidableEq

/-- A row of the `lemma` table (`models.py`, class `Lemma`). -/
structure Lemma where
  id : Nat
  text : String
  frequency : Int
  definition : Option String
  card_subtitle : Option Nat
deriving DecidableEq

/-- `models.py` declares `definition = pw.TextField()`.  A peewee field
defaults to `null=False`, so the persisted column is `definition TEXT NOT
NULL` (contrast `card_subtitle`, declared with `null=True`). -/
def lemmaDefinitionNullable : Bool := false

/-- A row of the `subtitlelemma` table (`models.py`, class `SubtitleLemma`);
the two foreign-key columns form the composite primary key. -/
structure SubtitleLemma where
  subtitle_id : Nat
  lemma_id : Nat
deriving DecidableEq

/-- The persistent store.  `tablesExist` models whether the schema (tables
and triggers) has been created; `nextSubId` and `nextLemmaId` model the
`AutoField` id sequences of the two tables with surrogate keys. -/
structure DB where
  tablesExist : Bool
  subtitles : List Subtitle
  lemmas : List Lemma
  rels : List SubtitleLemma
  nextSubId : Nat
  nextLemmaId : Nat
deriving DecidableEq

/-- Store errors surfaced by the embedding. -/
inductive DBError where
  | cacheLoad
  | notNull
  | uniqueText
  | duplicateKey
deriving DecidableEq

/-- A buffered segment (`SubtitleProcessor.add`, sub_processor.py).
`starts_at` and `ends_at` hold `round(x, 3)` — an exact multiple of a
millisecond — represented as an integer count of milliseconds; the store
later truncates them to whole seconds (`IntegerField`), so the buffered and
stored values differ whenever the offset is not a whole second. -/
structure Segment where
  text : String
  episode_number : Int
  starts_at : Int
  ends_at : Int
deriving DecidableEq

/-- The in-memory lemma cache: pairs (lemma text, lemma id).  Lemma texts in
the store are unique, so first-match lookup agrees with the Python dict. -/
abbrev Cache := List (String × Nat)

/-- The processor state (`SubtitleProcessor.__init__`). -/
structure Processor where
  subtitles_data : List Segment
  lemma_cache : Option Cache
deriving DecidableEq

/-- `SubtitleProcessor.add`: appends raw subtitle data in arrival order. -/
def Processor.add (p : Processor) (text : String) (episode : Int)
    (startsAt endsAt : Int) : Processor :=
  { p with subtitles_data := p.subtitles_data ++ [⟨text, episode, startsAt, endsAt⟩] }

/-- Python `int()` applied to a buffered offset of `m` milliseconds:
truncation toward zero to whole seconds (peewee `IntegerField` adaption). -/
def msTrunc (m : Int) : Int :=
  if 0 ≤ m then Int.ediv m 1000 else -(Int.ediv (-m) 1000)

/-- Natural key of a persisted subtitle row (text, episode, start, end) as
the `sub_id_map` dictionary compares it: the stored whole-second offsets
equal a buffered value numerically exactly when that value is `1000 * n`
milliseconds, so the key is expressed in the millisecond domain. -/
def natKey (s : Subtitle) : String × Int × Int × Int :=
  (s.text, s.episode_number, 1000 * s.starts_at, 1000 * s.ends_at)

/-- Natural key of a pending segment (buffered offsets, milliseconds). -/
def segKey (g : Segment) : String × Int × Int × Int :=
  (g.text, g.episode_number, g.starts_at, g.ends_at)

/-- A segment whose buffered offsets are whole seconds: precisely the case
in which the stored integer offsets compare equal to the buffered ones. -/
def wholeSeconds (g : Segment) : Prop :=
  (1000 : Int) ∣ g.starts_at ∧ (1000 : Int) ∣ g.ends_at

instance (g : Segment) : Decidable (wholeSeconds g) := by
  unfold wholeSeconds
  exact inferInstance

/-- Cache lookup (Python dict access on `self.lemma_cache`). -/
def cacheLookup (t : String) : Cache → Option Nat
  | [] => none
  | (k, v) :: rest => if k = t then some v else cacheLookup t rest

/-- Lookup in a list of (lemma id, subtitle id) update pairs. -/
def lookupNat (n : Nat) : List (Nat × Nat) → Option Nat
  | [] => none
  | (k, v) :: rest => if k = n then some v else lookupNat n rest

/-- `sub_id_map` (sub_processor.py): a Python dict built by iterating the
fetched rows in order; a later row with the same natural key overwrites an
earlier one, so a lookup yields the id of the last matching row. -/
def lookupSubIdLast (k : String × Int × Int × Int) : List Subtitle → Option Nat
  | [] => none
  | s :: rest =>
    match lookupSubIdLast k rest with
    | some i => some i
    | none => if natKey s = k then some s.id else none

/-- `Subtitle.select().where(Subtitle.text.in_(df['text'].unique()))`:
the rows whose text occurs among the batch texts, in rowid order. -/
def fetchSubs (segs : List Segment) (subs : List Subtitle) : List Subtitle :=
  subs.filter (fun s => segs.any (fun g => g.text == s.text))

/-- A record passed to `Lemma.insert_many` during a flush: the code supplies
only `text` (`new_lemma_records = [{'text': t} for t in new_lemma_texts]`);
peewee fills columns that have defaults (`frequency`) but `definition` has
none, so the generated INSERT omits it. -/
structure LemmaRecord where
  text : String
  definition : Option String
deriving DecidableEq

/-- Inserting one lemma row: the schema rejects a missing `definition`
(NOT NULL column) and a duplicated text (UNIQUE column). -/
def insertLemma (db : DB) (r : LemmaRecord) : Except DBError DB :=
  if r.definition = none ∧ lemmaDefinitionNullable = false then
    .error .notNull
  else if db.lemmas.any (fun l => l.text == r.text) then
    .error .uniqueText
  else
    .ok { db with
      lemmas := db.lemmas ++ [⟨db.nextLemmaId, r.text, 0, r.definition, none⟩],
      nextLemmaId := db.nextLemmaId + 1 }

/-- `Lemma.insert_many(...).execute()` row by row; the whole statement fails
on the first violating row. -/
def insertLemmas : List LemmaRecord → DB → Except DBError DB
  | [], db => .ok db
  | r :: rs, db =>
    match insertLemma db r with
    | .error e => .error e
    | .ok db' => insertLemmas rs db'

/-- The subtitle rows generated for a batch, ids assigned sequentially from
`n` in segment order (`AutoField` rowids of the bulk insert).  The
millisecond offsets are truncated to whole seconds by the `IntegerField`
columns (peewee adapts with Python `int()`). -/
def mkSubRows (n : Nat) : List Segment → List Subtitle
  | [] => []
  | g :: gs =>
    ⟨n, g.text, g.episode_number, msTrunc g.starts_at, msTrunc g.ends_at⟩ ::
      mkSubRows (n + 1) gs

/-- `Subtitle.insert_many(sub_records).execute()`: no unique constraint on
the subtitle table, so the bulk insert always succeeds. -/
def insertSubtitles (segs : List Segment) (db : DB) : DB :=
  { db with
    subtitles := db.subtitles ++ mkSubRows db.nextSubId segs,
    nextSubId := db.nextSubId + segs.length }

/-- The `increment_frequency` trigger (setup.py): after each relation row is
inserted, `UPDATE lemma SET frequency = frequency + 1 WHERE id = NEW.lemma_id`. -/
def incrementFrequency (lid : Nat) (ls : List Lemma) : List Lemma :=
  ls.map (fun l => if l.id = lid then { l with frequency := l.frequency + 1 } else l)

/-- Inserting one relation row: the composite primary key (subtitle, lemma)
rejects a duplicate pair; on success the trigger bumps the lemma frequency. -/
def insertRel (db : DB) (q : SubtitleLemma) : Except DBError DB :=
  if q ∈ db.rels then .error .duplicateKey
  else .ok { db with
    rels := db.rels ++ [q],
    lemmas := incrementFrequency q.lemma_id db.lemmas }

/-- `SubtitleLemma.insert_many(rels_to_insert).execute()` row by row. -/
def insertRels : List SubtitleLemma → DB → Except DBError DB
  | [], db => .ok db
  | q :: qs, db =>
    match insertRel db q with
    | .error e => .error e
    | .ok db' => insertRels qs db'

/-- `set(exploded_df['lemmas'])`: the distinct lemma texts of the batch
(iteration order of a Python set is arbitrary; `dedup` fixes one order, and
no property below depends on it). -/
def batchLemmas (L : String → List String) (segs : List Segment) : List String :=
  ((segs.map (fun g => L g.text)).flatten).dedup

/-- `all_lemmas_in_batch - self.lemma_cache.keys()`. -/
def newLemmaTexts (L : String → List String) (cache : Cache) (segs : List Segment) :
    List String :=
  (batchLemmas L segs).filter (fun t => (cacheLookup t cache).isNone)

/-- The subtitle id resolved for a segment: the natural-key dict built from
the re-queried rows (sub_processor.py, the `sub_id_map` / `df.apply` step). -/
def segSubId (segs : List Segment) (subs : List Subtitle) (g : Segment) : Option Nat :=
  lookupSubIdLast (segKey g) (fetchSubs segs subs)

/-- The relation rows a single segment contributes (`rels_df`): one per lemma
occurrence, pairing the resolved subtitle id with the cached lemma id.  A
segment whose subtitle id did not resolve is dropped (`dropna`); at this
point every batch lemma is in the cache, since otherwise the earlier lemma
insert would have failed the flush. -/
def segRels (L : String → List String) (cache : Cache) (segs : List Segment)
    (subs : List Subtitle) (g : Segment) : List SubtitleLemma :=
  match segSubId segs subs g with
  | none => []
  | some sid =>
    (L g.text).filterMap (fun t => (cacheLookup t cache).map (fun lid => ⟨sid, lid⟩))

/-- All relation rows built for the batch (step 5), in segment order. -/
def builtRels (L : String → List String) (cache : Cache) (segs : List Segment)
    (subs : List Subtitle) : List SubtitleLemma :=
  (segs.map (segRels L cache segs subs)).flatten

/-- `rels_df.groupby('lemma_id')['subtitle_id'].apply(list)` for one lemma:
the subtitle ids of the batch relation rows carrying that lemma. -/
def subsFor (lid : Nat) (rels : List SubtitleLemma) : List Nat :=
  rels.filterMap (fun q => if q.lemma_id = lid then some q.subtitle_id else none)

/-- The update pairs produced for a given list of distinct batch lemma ids:
each id with relation rows is paired with a subtitle chosen by `pick`
(`random.choice`) among its associated subtitle ids; ids without relation
rows are skipped (the walrus guard in the list comprehension). -/
def cardUpdatesFor (pick : List Nat → Nat) (rels : List SubtitleLemma)
    (ids : List Nat) : List (Nat × Nat) :=
  ids.filterMap (fun lid =>
    if subsFor lid rels = [] then none else some (lid, pick (subsFor lid rels)))

/-- `lemmas_to_update` (`lemmas_in_batch_ids` is the set of cache ids of the
distinct batch lemma texts). -/
def cardUpdates (pick : List Nat → Nat) (cache : Cache) (allLemmas : List String)
    (rels : List SubtitleLemma) : List (Nat × Nat) :=
  cardUpdatesFor pick rels ((allLemmas.filterMap (fun t => cacheLookup t cache)).dedup)

/-- `Lemma.bulk_update(lemmas_to_update, fields=[Lemma.card_subtitle])`. -/
def updateCards (ups : List (Nat × Nat)) (db : DB) : DB :=
  { db with lemmas := db.lemmas.map (fun l =>
      match lookupNat l.id ups with
      | some sid => { l with card_subtitle := some sid }
      | none => l) }

/-- The tail of the transaction once lemmas are settled: subtitle bulk
insert, natural-key id resolution, relation bulk insert (with the frequency
trigger), and the card_subtitle bulk update.  The middle component is the
in-memory cache, which the store rollback does not undo. -/
def afterLemmas (L : String → List String) (pick : List Nat → Nat) (cache : Cache)
    (segs : List Segment) (db : DB) : Option DBError × Cache × DB :=
  let db1 := insertSubtitles segs db
  let rels := builtRels L cache segs db1.subtitles
  match insertRels rels db1 with
  | .error e => (some e, cache, db1)
  | .ok db2 =>
    (none, cache, updateCards (cardUpdates pick cache (batchLemmas L segs) rels) db2)

/-- The body of `with db.atomic():` (sub_processor.py): insert the new
lemmas (records carry only `text`), merge their ids into the cache, then run
the tail of the transaction.  On error the caller rolls the store back; the
cache component reflects whatever in-memory mutation happened beforehand. -/
def commitBatch (L : String → List String) (pick : List Nat → Nat) (cache : Cache)
    (segs : List Segment) (db : DB) : Option DBError × Cache × DB :=
  let nw := newLemmaTexts L cache segs
  if nw = [] then afterLemmas L pick cache segs db
  else
    match insertLemmas (nw.map (fun t => ⟨t, none⟩)) db with
    | .error e => (some e, cache, db)
    | .ok db1 =>
      let added := db1.lemmas.filter (fun l => decide (l.text ∈ nw))
      afterLemmas L pick (cache ++ added.map (fun l => (l.text, l.id))) segs db1

/-- `_load_cache_if_needed`: hydrates the cache from the lemma table,
"assuming the database and tables already exist"; raises when they do not. -/
def loadCache (db : DB) : Except DBError Cache :=
  if db.tablesExist then .ok (db.lemmas.map (fun l => (l.text, l.id)))
  else .error .cacheLoad

/-- Outcome of one `process()` call: the propagated error (if any) and the
post-call processor and store states. -/
structure FlushResult where
  error : Option DBError
  proc : Processor
  db : DB
deriving DecidableEq

/-- `SubtitleProcessor.process` from the point where the cache is loaded:
the empty-buffer early return, then the try/atomic/finally block.  On any
error inside the block the transaction rolls back (the store reverts to
`db`), and the `finally` clears the accumulator either way. -/
def processLoaded (L : String → List String) (pick : List Nat → Nat)
    (p : Processor) (db : DB) : FlushResult :=
  if p.subtitles_data = [] then ⟨none, p, db⟩
  else
    match commitBatch L pick (p.lemma_cache.getD []) p.subtitles_data db with
    | (some e, c, _) => ⟨some e, ⟨[], some c⟩, db⟩
    | (none, c, db') => ⟨none, ⟨[], some c⟩, db'⟩

/-- `SubtitleProcessor.process`: the cache load happens before the
try/finally block, so a cache-load failure propagates without touching the
accumulator. -/
def process (L : String → List String) (pick : List Nat → Nat)
    (p : Processor) (db : DB) : FlushResult :=
  match p.lemma_cache with
  | some _ => processLoaded L pick p db
  | none =>
    match loadCache db with
    | .error e => ⟨some e, p, db⟩
    | .ok c => processLoaded L pick { p with lemma_cache := some c } db

/-- `reset_db` (setup.py): drops the three tables and recreates them together
with the frequency triggers; every id sequence restarts. -/
def reset_db (_db : DB) : DB :=
  { tablesExist := true, subtitles := [], lemmas := [], rels := [],
    nextSubId := 1, nextLemmaId := 1 }

/-! The lemmatizer adapter (`SubtitleProcessor._lemmatize_batch`): the spaCy
pipeline is external; a document is its token list. -/

/-- A spaCy token, with the attributes the code reads. -/
structure Token where
  lemmaText : String
  is_alpha : Bool
  is_stop : Bool
  is_punct : Bool
deriving DecidableEq

/-- The per-document comprehension of `_lemmatize_batch`: keep alphabetic,
non-stop, non-punctuation tokens and lower-case their lemmas. -/
def lemmatizeDoc (doc : List Token) : List String :=
  (doc.filter (fun t => t.is_alpha && !t.is_stop && !t.is_punct)).map
    (fun t => t.lemmaText.toLower)

/-- `_lemmatize_batch`: `nlp.pipe(texts)` yields one document per text in
order; each is reduced by the comprehension above. -/
def lemmatize_batch (nlp : String → List Token) (texts : List String) :
    List (List String) :=
  texts.map (fun t => lemmatizeDoc (nlp t))

/-! ### Store invariants -/

/-- Every lemma row's `frequency` equals the number of relation rows that
reference it (the spec's frequency invariant). -/
def freqInv (db : DB) : Prop :=
  ∀ l ∈ db.lemmas, l.frequency = (db.rels.countP (fun q => q.lemma_id == l.id) : Int)

instance (db : DB) : Decidable (freqInv db) := by
  unfold freqInv; exact inferInstance

/-- Whenever `card_subtitle` is set on a lemma row, a relation row links that
subtitle and that lemma (the spec's representative-example invariant). -/
def cardInv (db : DB) : Prop :=
  ∀ l ∈ db.lemmas, ∀ sid, l.card_subtitle = some sid →
    (⟨sid, l.id⟩ : SubtitleLemma) ∈ db.rels

/-! ### Concrete instances used by the evaluation theorems and witnesses -/

/-- A concrete lemmatizer matching the spec scenario (spaCy on French drops
the stop word `le` and lemmatizes the rest) plus a few auxiliary texts. -/
def exNlp : String → List String := fun t =>
  if t = "le chat mange" then ["chat", "manger"]
  else if t = "le chien court" then ["chien", "courir"]
  else if t = "hola" then ["hola"]
  else if t = "perro perro" then ["perro", "perro"]
  else if t = "perro" then ["perro"]
  else if t = "gato" then ["gato"]
  else []

/-- A deterministic stand-in for `random.choice`: the head of the list. -/
def exPick : List Nat → Nat := fun ns => ns.headD 0

/-- A store with no schema at all. -/
def db0 : DB := ⟨false, [], [], [], 0, 0⟩

/-- The store right after `reset_db`. -/
def freshDB : DB := reset_db db0

/-- A processor with an empty buffer and an unloaded cache. -/
def emptyProc : Processor := ⟨[], none⟩

/-- The spec scenario batch: two French segments of episode 1. -/
def procScenario : Processor :=
  (emptyProc.add "le chat mange" 1 0 2000).add "le chien court" 1 2000 4000

/-- A one-segment batch introducing a single new lemma. -/
def procHola : Processor := emptyProc.add "hola" 1 0 1000

/-- A store already holding the four scenario lemmas at frequency 0. -/
def dbPre : DB :=
  { tablesExist := true, subtitles := [],
    lemmas := [⟨1, "chat", 0, some "cat", none⟩, ⟨2, "manger", 0, some "eat", none⟩,
               ⟨3, "chien", 0, some "dog", none⟩, ⟨4, "courir", 0, some "run", none⟩],
    rels := [], nextSubId := 1, nextLemmaId := 5 }

/-- A store already holding the lemma `perro`. -/
def dbPerro : DB :=
  { tablesExist := true, subtitles := [],
    lemmas := [⟨1, "perro", 0, some "dog", none⟩],
    rels := [], nextSubId := 1, nextLemmaId := 2 }

/-- Two textually and temporally identical segments in one batch. -/
def procPerroTwice : Processor :=
  (emptyProc.add "perro" 1 0 1000).add "perro" 1 0 1000

/-- One segment whose lemmatization repeats the same lemma (whole-second
offsets: 0.0 and 1.0). -/
def procPerroDupLemma : Processor := emptyProc.add "perro perro" 1 0 1000

/-- A store already holding the lemmas `perro` and `gato`. -/
def dbPG : DB :=
  { tablesExist := true, subtitles := [],
    lemmas := [⟨1, "perro", 0, some "dog", none⟩, ⟨2, "gato", 0, some "cat", none⟩],
    rels := [], nextSubId := 1, nextLemmaId := 3 }

/-- A batch pairing a duplicate-lemma segment with NON-whole-second offsets
(0.5s and 1.5s, i.e. 500 and 1500 milliseconds) and an ordinary segment
with whole-second offsets. -/
def procMixedDup : Processor :=
  (emptyProc.add "perro perro" 1 500 1500).add "gato" 2 0 1000

/-! ### Supporting lemmas -/

theorem insertLemmas_noDef_ne_nil (ts : List String) (h : ts ≠ []) (db : DB) :
    insertLemmas (ts.map (fun t => (⟨t, none⟩ : LemmaRecord))) db = .error .notNull := by
  cases ts with
  | nil => exact absurd rfl h
  | cons t ts => simp [insertLemmas, insertLemma, lemmaDefinitionNullable]

theorem afterLemmas_cache (L : String → List String) (pick : List Nat → Nat)
    (cache : Cache) (segs : List Segment) (db : DB) :
    (afterLemmas L pick cache segs db).2.1 = cache := by
  unfold afterLemmas
  dsimp only
  split <;> rfl

theorem commitBatch_cache (L : String → List String) (pick : List Nat → Nat)
    (cache : Cache) (segs : List Segment) (db : DB) :
    (commitBatch L pick cache segs db).2.1 = cache := by
  unfold commitBatch
  dsimp only
  split
  · exact afterLemmas_cache ..
  · next h => rw [insertLemmas_noDef_ne_nil _ h]

theorem processLoaded_error_state (L : String → List String) (pick : List Nat → Nat)
    (p : Processor) (db : DB)
    (h : (processLoaded L pick p db).error.isSome) :
    (processLoaded L pick p db).db = db ∧
    (processLoaded L pick p db).proc.lemma_cache = some (p.lemma_cache.getD []) := by
  by_cases hb : p.subtitles_data = []
  · simp [processLoaded, hb] at h
  · rcases hcb : commitBatch L pick (p.lemma_cache.getD []) p.subtitles_data db
      with ⟨err, c, dbw⟩
    have hc : c = p.lemma_cache.getD [] := by
      have := commitBatch_cache L pick (p.lemma_cache.getD []) p.subtitles_data db
      rw [hcb] at this
      exact this
    cases err with
    | none => simp [processLoaded, hb, hcb] at h
    | some e => simp [processLoaded, hb, hcb, hc]

theorem processLoaded_buffer (L : String → List String) (pick : List Nat → Nat)
    (p : Processor) (db : DB) :
    (processLoaded L pick p db).proc.subtitles_data = [] := by
  by_cases hb : p.subtitles_data = []
  · simp [processLoaded, hb]
  · rcases hcb : commitBatch L pick (p.lemma_cache.getD []) p.subtitles_data db
      with ⟨err, c, dbw⟩
    cases err with
    | none => simp [processLoaded, hb, hcb]
    | some e => simp [processLoaded, hb, hcb]

theorem insertRel_ok (db : DB) (q : SubtitleLemma) (db' : DB)
    (h : insertRel db q = .ok db') :
    q ∉ db.rels ∧ db'.rels = db.rels ++ [q] ∧
    db'.lemmas = incrementFrequency q.lemma_id db.lemmas ∧
    db'.subtitles = db.subtitles := by
  unfold insertRel at h
  by_cases hq : q ∈ db.rels
  · rw [if_pos hq] at h
    cases h
  · rw [if_neg hq] at h
    cases h
    exact ⟨hq, rfl, rfl, rfl⟩

theorem processLoaded_cases (L : String → List String) (pick : List Nat → Nat)
    (p : Processor) (db : DB) :
    ((processLoaded L pick p db).db = db ∧
      ((processLoaded L pick p db).error.isSome ∨ p.subtitles_data = [])) ∨
    ∃ db2,
      (processLoaded L pick p db).error = none ∧
      newLemmaTexts L (p.lemma_cache.getD []) p.subtitles_data = [] ∧
      insertRels
        (builtRels L (p.lemma_cache.getD []) p.subtitles_data
          (insertSubtitles p.subtitles_data db).subtitles)
        (insertSubtitles p.subtitles_data db) = .ok db2 ∧
      (processLoaded L pick p db).db =
        updateCards
          (cardUpdates pick (p.lemma_cache.getD []) (batchLemmas L p.subtitles_data)
            (builtRels L (p.lemma_cache.getD []) p.subtitles_data
              (insertSubtitles p.subtitles_data db).subtitles))
          db2 := by
  by_cases hb : p.subtitles_data = []
  · left
    refine ⟨by simp [processLoaded, hb], Or.inr hb⟩
  · set cache := p.lemma_cache.getD []
    by_cases hnw : newLemmaTexts L cache p.subtitles_data = []
    · rcases hir : insertRels
          (builtRels L cache p.subtitles_data
            (insertSubtitles p.subtitles_data db).subtitles)
          (insertSubtitles p.subtitles_data db) with e | db2
      · left
        refine ⟨by simp [processLoaded, hb, commitBatch, hnw, afterLemmas, hir], ?_⟩
        left
        simp [processLoaded, hb, commitBatch, hnw, afterLemmas, hir]
      · right
        refine ⟨db2, ?_, hnw, rfl, ?_⟩
        · simp [processLoaded, hb, commitBatch, hnw, afterLemmas, hir]
        · simp [processLoaded, hb, commitBatch, hnw, afterLemmas, hir]
    · left
      have hins :=
        insertLemmas_noDef_ne_nil (newLemmaTexts L cache p.subtitles_data) hnw db
      refine ⟨by simp [processLoaded, hb, commitBatch, hnw, hins], ?_⟩
      left
      simp [processLoaded, hb, commitBatch, hnw, hins]

theorem process_cases (L : String → List String) (pick : List Nat → Nat)
    (p : Processor) (db : DB) :
    ((process L pick p db).db = db ∧
      ((process L pick p db).error.isSome ∨ p.subtitles_data = [])) ∨
    ∃ cache db2,
      (process L pick p db).error = none ∧
      newLemmaTexts L cache p.subtitles_data = [] ∧
      insertRels
        (builtRels L cache p.subtitles_data
          (insertSubtitles p.subtitles_data db).subtitles)
        (insertSubtitles p.subtitles_data db) = .ok db2 ∧
      (process L pick p db).db =
        updateCards
          (cardUpdates pick cache (batchLemmas L p.subtitles_data)
            (builtRels L cache p.subtitles_data
              (insertSubtitles p.subtitles_data db).subtitles))
          db2 := by
  unfold process
  cases hc : p.lemma_cache with
  | some c0 =>
    rcases processLoaded_cases L pick p db with h | ⟨db2, h1, h1n, h2, h3⟩
    · left
      exact h
    · right
      exact ⟨p.lemma_cache.getD [], db2, h1, h1n, h2, h3⟩
  | none =>
    rcases hl : loadCache db with e | cl
    · left
      exact ⟨rfl, Or.inl rfl⟩
    · rcases processLoaded_cases L pick { p with lemma_cache := some cl } db
        with h | ⟨db2, h1, h1n, h2, h3⟩
      · left
        exact h
      · right
        exact ⟨cl, db2, h1, h1n, h2, h3⟩

theorem freqInv_insertRel (db : DB) (q : SubtitleLemma) (db' : DB)
    (h : insertRel db q = .ok db') (hinv : freqInv db) : freqInv db' := by
  obtain ⟨_, hrels, hlem, _⟩ := insertRel_ok db q db' h
  intro l' hl'
  rw [hlem] at hl'
  unfold incrementFrequency at hl'
  obtain ⟨l, hl, heq⟩ := List.mem_map.mp hl'
  have hcount := hinv l hl
  rw [hrels]
  by_cases hid : l.id = q.lemma_id
  · rw [if_pos hid] at heq
    subst heq
    simp only [List.countP_append, List.countP_cons, List.countP_nil]
    have hbeq : (q.lemma_id == l.id) = true := by
      simp [hid.symm]
    simp only [hbeq, if_true]
    rw [hcount]
    push_cast
    ring
  · rw [if_neg hid] at heq
    subst heq
    simp only [List.countP_append, List.countP_cons, List.countP_nil]
    have hbeq : (q.lemma_id == l.id) = false := by
      simp
      intro hcontra
      exact hid hcontra.symm
    simp only [hbeq, if_false]
    rw [hcount]
    push_cast
    ring

theorem freqInv_insertRels (qs : List SubtitleLemma) :
    ∀ db db' : DB, insertRels qs db = .ok db' → freqInv db → freqInv db' := by
  induction qs with
  | nil =>
    intro db db' h hinv
    unfold insertRels at h
    cases h
    exact hinv
  | cons q qs ih =>
    intro db db' h hinv
    unfold insertRels at h
    rcases hr : insertRel db q with e | dbm
    · rw [hr] at h
      cases h
    · rw [hr] at h
      exact ih dbm db' h (freqInv_insertRel db q dbm hr hinv)

theorem insertRels_ok_rels (qs : List SubtitleLemma) :
    ∀ db db' : DB, insertRels qs db = .ok db' → db'.rels = db.rels ++ qs := by
  induction qs with
  | nil =>
    intro db db' h
    unfold insertRels at h
    cases h
    simp
  | cons q qs ih =>
    intro db db' h
    unfold insertRels at h
    rcases hr : insertRel db q with e | dbm
    · rw [hr] at h
      cases h
    · rw [hr] at h
      obtain ⟨_, hrels, _, _⟩ := insertRel_ok db q dbm hr
      rw [ih dbm db' h, hrels]
      simp

theorem insertRels_ok_subs (qs : List SubtitleLemma) :
    ∀ db db' : DB, insertRels qs db = .ok db' → db'.subtitles = db.subtitles := by
  induction qs with
  | nil =>
    intro db db' h
    unfold insertRels at h
    cases h
    rfl
  | cons q qs ih =>
    intro db db' h
    unfold insertRels at h
    rcases hr : insertRel db q with e | dbm
    · rw [hr] at h
      cases h
    · rw [hr] at h
      obtain ⟨_, _, _, hsubs⟩ := insertRel_ok db q dbm hr
      rw [ih dbm db' h, hsubs]

theorem insertRels_ok_disjoint (qs : List SubtitleLemma) :
    ∀ db db' : DB, insertRels qs db = .ok db' → ∀ q ∈ qs, q ∉ db.rels := by
  induction qs with
  | nil =>
    intro db db' _ q hq
    cases hq
  | cons q0 qs ih =>
    intro db db' h q hq
    unfold insertRels at h
    rcases hr : insertRel db q0 with e | dbm
    · rw [hr] at h
      cases h
    · rw [hr] at h
      obtain ⟨hq0, hrels, _, _⟩ := insertRel_ok db q0 dbm hr
      rcases List.mem_cons.mp hq with rfl | hq'
      · exact hq0
      · intro hmem
        have : q ∈ dbm.rels := by
          rw [hrels]
          exact List.mem_append_left _ hmem
        exact ih dbm db' h q hq' this

theorem insertRels_ok_lemmas_card (qs : List SubtitleLemma) :
    ∀ db db' : DB, insertRels qs db = .ok db' →
      ∀ l' ∈ db'.lemmas, ∃ l ∈ db.lemmas,
        l'.id = l.id ∧ l'.card_subtitle = l.card_subtitle := by
  induction qs with
  | nil =>
    intro db db' h l' hl'
    unfold insertRels at h
    cases h
    exact ⟨l', hl', rfl, rfl⟩
  | cons q qs ih =>
    intro db db' h l' hl'
    unfold insertRels at h
    rcases hr : insertRel db q with e | dbm
    · rw [hr] at h
      cases h
    · rw [hr] at h
      obtain ⟨lm, hlm, hid, hcard⟩ := ih dbm db' h l' hl'
      obtain ⟨_, _, hlem, _⟩ := insertRel_ok db q dbm hr
      rw [hlem] at hlm
      unfold incrementFrequency at hlm
      obtain ⟨l, hl, heq⟩ := List.mem_map.mp hlm
      by_cases hidq : l.id = q.lemma_id
      · rw [if_pos hidq] at heq
        subst heq
        exact ⟨l, hl, hid, hcard⟩
      · rw [if_neg hidq] at heq
        subst heq
        exact ⟨l, hl, hid, hcard⟩

theorem lookupNat_mem (n v : Nat) :
    ∀ l : List (Nat × Nat), lookupNat n l = some v → (n, v) ∈ l := by
  intro l
  induction l with
  | nil =>
    intro h
    cases h
  | cons a l ih =>
    intro h
    unfold lookupNat at h
    by_cases ha : a.1 = n
    · rw [if_pos ha] at h
      have hv : a.2 = v := Option.some.inj h
      have haa : a = (n, v) := by
        cases a
        simp_all
      rw [← haa]
      exact List.mem_cons_self _ _
    · rw [if_neg ha] at h
      exact List.mem_cons_of_mem _ (ih h)

theorem mem_cardUpdatesFor (pick : List Nat → Nat) (rels : List SubtitleLemma)
    (ids : List Nat) (n v : Nat) (h : (n, v) ∈ cardUpdatesFor pick rels ids) :
    subsFor n rels ≠ [] ∧ v = pick (subsFor n rels) := by
  obtain ⟨lid, _, heq⟩ := List.mem_filterMap.mp h
  by_cases hs : subsFor lid rels = []
  · rw [if_pos hs] at heq
    cases heq
  · rw [if_neg hs] at heq
    have h1 : lid = n := congrArg Prod.fst (Option.some.inj heq)
    have h2 : pick (subsFor lid rels) = v := congrArg Prod.snd (Option.some.inj heq)
    subst h1
    exact ⟨hs, h2.symm⟩

theorem lookup_cardUpdatesFor (pick : List Nat → Nat) (rels : List SubtitleLemma)
    (lid : Nat) :
    ∀ ids : List Nat, ids.Nodup → lid ∈ ids → subsFor lid rels ≠ [] →
      lookupNat lid (cardUpdatesFor pick rels ids) =
        some (pick (subsFor lid rels)) := by
  intro ids
  induction ids with
  | nil =>
    intro _ hmem
    cases hmem
  | cons a ids ih =>
    intro hnd hmem hs
    rcases List.mem_cons.mp hmem with rfl | hmem'
    · unfold cardUpdatesFor
      rw [List.filterMap_cons, if_neg hs]
      unfold lookupNat
      rw [if_pos rfl]
    · have ha : a ≠ lid := by
        intro hcontra
        subst hcontra
        exact (List.nodup_cons.mp hnd).1 hmem'
      unfold cardUpdatesFor
      rw [List.filterMap_cons]
      by_cases hsa : subsFor a rels = []
      · rw [if_pos hsa]
        exact ih (List.nodup_cons.mp hnd).2 hmem' hs
      · rw [if_neg hsa]
        unfold lookupNat
        rw [if_neg ha]
        exact ih (List.nodup_cons.mp hnd).2 hmem' hs

theorem subsFor_mem (sid lid : Nat) (rels : List SubtitleLemma)
    (h : sid ∈ subsFor lid rels) : (⟨sid, lid⟩ : SubtitleLemma) ∈ rels := by
  obtain ⟨q, hq, heq⟩ := List.mem_filterMap.mp h
  by_cases hql : q.lemma_id = lid
  · rw [if_pos hql] at heq
    have hsid : q.subtitle_id = sid := Option.some.inj heq
    have : q = ⟨sid, lid⟩ := by
      cases q
      simp_all
    rw [← this]
    exact hq
  · rw [if_neg hql] at heq
    cases heq

theorem mem_subsFor (q : SubtitleLemma) (rels : List SubtitleLemma)
    (h : q ∈ rels) : q.subtitle_id ∈ subsFor q.lemma_id rels := by
  apply List.mem_filterMap.mpr
  exact ⟨q, h, by rw [if_pos rfl]⟩

theorem builtRels_lemma_id (L : String → List String) (cache : Cache)
    (segs : List Segment) (subs : List Subtitle) (q : SubtitleLemma)
    (h : q ∈ builtRels L cache segs subs) :
    ∃ t, t ∈ batchLemmas L segs ∧ cacheLookup t cache = some q.lemma_id := by
  obtain ⟨part, hpart, hq⟩ := List.mem_flatten.mp h
  obtain ⟨g, hg, hgeq⟩ := List.mem_map.mp hpart
  rw [← hgeq] at hq
  unfold segRels at hq
  cases hsid : segSubId segs subs g with
  | none =>
    rw [hsid] at hq
    cases hq
  | some sid =>
    rw [hsid] at hq
    obtain ⟨t, ht, hteq⟩ := List.mem_filterMap.mp hq
    refine ⟨t, ?_, ?_⟩
    · apply List.mem_dedup.mpr
      apply List.mem_flatten.mpr
      exact ⟨L g.text, List.mem_map.mpr ⟨g, hg, rfl⟩, ht⟩
    · cases hlk : cacheLookup t cache with
      | none =>
        rw [hlk] at hteq
        cases hteq
      | some lid =>
        rw [hlk] at hteq
        have : (⟨sid, lid⟩ : SubtitleLemma) = q := Option.some.inj hteq
        rw [← this]

theorem freqInv_updateCards (ups : List (Nat × Nat)) (db : DB)
    (hinv : freqInv db) : freqInv (updateCards ups db) := by
  intro l' hl'
  unfold updateCards at hl'
  obtain ⟨l, hl, heq⟩ := List.mem_map.mp hl'
  have hc := hinv l hl
  cases hlk : lookupNat l.id ups with
  | some sid =>
    rw [hlk] at heq
    subst heq
    exact hc
  | none =>
    rw [hlk] at heq
    subst heq
    exact hc

theorem msTrunc_whole (m : Int) (h : (1000 : Int) ∣ m) :
    1000 * msTrunc m = m := by
  obtain ⟨k, rfl⟩ := h
  unfold msTrunc
  by_cases hk : 0 ≤ (1000 : Int) * k
  · rw [if_pos hk]
    have : Int.ediv (1000 * k) 1000 = k := Int.mul_ediv_cancel_left k (by norm_num)
    rw [this]
  · rw [if_neg hk]
    have hneg : -(1000 * k) = 1000 * (-k) := by ring
    rw [hneg]
    have : Int.ediv (1000 * (-k)) 1000 = -k := Int.mul_ediv_cancel_left (-k) (by norm_num)
    rw [this]
    ring

theorem natKey_mkSubRow (g : Segment) (n : Nat) (hw : wholeSeconds g) :
    natKey ⟨n, g.text, g.episode_number, msTrunc g.starts_at, msTrunc g.ends_at⟩ =
      segKey g := by
  unfold natKey segKey
  simp only
  rw [msTrunc_whole g.starts_at hw.1, msTrunc_whole g.ends_at hw.2]

theorem insertRels_error_of_mem (qs : List SubtitleLemma) :
    ∀ (db : DB) (q : SubtitleLemma), q ∈ qs → q ∈ db.rels →
      ∀ db', insertRels qs db ≠ .ok db' := by
  induction qs with
  | nil =>
    intro db q hq
    cases hq
  | cons q0 qs ih =>
    intro db q hq hmem db' h
    unfold insertRels at h
    rcases hr : insertRel db q0 with e | dbm
    · rw [hr] at h
      cases h
    · rw [hr] at h
      obtain ⟨hq0, hrels, _, _⟩ := insertRel_ok db q0 dbm hr
      rcases List.mem_cons.mp hq with rfl | hq'
      · exact hq0 hmem
      · have : q ∈ dbm.rels := by
          rw [hrels]
          exact List.mem_append_left _ hmem
        exact ih dbm q hq' this db' h

theorem insertRels_error_of_dup (qs : List SubtitleLemma) (hdup : ¬qs.Nodup) :
    ∀ db db', insertRels qs db ≠ .ok db' := by
  induction qs with
  | nil => exact absurd List.nodup_nil hdup
  | cons q0 qs ih =>
    intro db db' h
    unfold insertRels at h
    rcases hr : insertRel db q0 with e | dbm
    · rw [hr] at h
      cases h
    · rw [hr] at h
      obtain ⟨_, hrels, _, _⟩ := insertRel_ok db q0 dbm hr
      rw [List.nodup_cons] at hdup
      push_neg at hdup
      by_cases hq0 : q0 ∈ qs
      · have : q0 ∈ dbm.rels := by
          rw [hrels]
          exact List.mem_append_right _ (List.mem_singleton.mpr rfl)
        exact insertRels_error_of_mem qs dbm q0 hq0 this db' h
      · exact ih (hdup hq0) dbm db' h

theorem mkSubRows_exists (g : Segment) (hw : wholeSeconds g) :
    ∀ (segs : List Segment) (n : Nat), g ∈ segs →
      ∃ r ∈ mkSubRows n segs, natKey r = segKey g := by
  intro segs
  induction segs with
  | nil =>
    intro n hg
    cases hg
  | cons g0 gs ih =>
    intro n hg
    rcases List.mem_cons.mp hg with rfl | hg'
    · exact ⟨⟨n, g.text, g.episode_number, msTrunc g.starts_at, msTrunc g.ends_at⟩,
        List.mem_cons_self _ _, natKey_mkSubRow g n hw⟩
    · obtain ⟨r, hr, hk⟩ := ih (n + 1) hg'
      exact ⟨r, List.mem_cons_of_mem _ hr, hk⟩

theorem lookupSubIdLast_isSome (k : String × Int × Int × Int) :
    ∀ rows : List Subtitle, (∃ s ∈ rows, natKey s = k) →
      (lookupSubIdLast k rows).isSome := by
  intro rows
  induction rows with
  | nil =>
    rintro ⟨s, hs, _⟩
    cases hs
  | cons s0 rest ih =>
    rintro ⟨s, hs, hk⟩
    unfold lookupSubIdLast
    cases hrec : lookupSubIdLast k rest with
    | some i => rfl
    | none =>
      rcases List.mem_cons.mp hs with rfl | hs'
      · rw [if_pos hk]
        rfl
      · have := ih ⟨s, hs', hk⟩
        rw [hrec] at this
        cases this

theorem segSubId_isSome (segs : List Segment) (db : DB) (g : Segment)
    (hg : g ∈ segs) (hw : wholeSeconds g) :
    (segSubId segs (insertSubtitles segs db).subtitles g).isSome := by
  apply lookupSubIdLast_isSome
  obtain ⟨r, hr, hk⟩ := mkSubRows_exists g hw segs db.nextSubId hg
  refine ⟨r, ?_, hk⟩
  apply List.mem_filter.mpr
  constructor
  · exact List.mem_append_right _ hr
  · apply List.any_eq_true.mpr
    refine ⟨g, hg, ?_⟩
    have htext : r.text = g.text := congrArg Prod.fst hk
    rw [htext]
    exact beq_self_eq_true _

theorem segRels_dup (L : String → List String) (cache : Cache)
    (segs : List Segment) (subs : List Subtitle) (g : Segment)
    (hsid : (segSubId segs subs g).isSome) (t : String)
    (hdup : List.Duplicate t (L g.text)) (lid : Nat)
    (hlk : cacheLookup t cache = some lid) :
    ¬ (segRels L cache segs subs g).Nodup := by
  cases hs : segSubId segs subs g with
  | none =>
    rw [hs] at hsid
    cases hsid
  | some sid =>
    unfold segRels
    rw [hs]
    have hsub : List.Sublist [t, t] (L g.text) := List.duplicate_iff_sublist.mp hdup
    have hsub2 := hsub.filterMap
      (fun t => (cacheLookup t cache).map (fun lid => (⟨sid, lid⟩ : SubtitleLemma)))
    have heval : List.filterMap
        (fun t => (cacheLookup t cache).map (fun lid => (⟨sid, lid⟩ : SubtitleLemma)))
        [t, t] = [⟨sid, lid⟩, ⟨sid, lid⟩] := by
      simp [List.filterMap_cons, hlk]
    rw [heval] at hsub2
    exact (List.duplicate_iff_sublist.mpr hsub2).not_nodup

theorem not_nodup_flatten_of_mem {α : Type} (parts : List (List α)) (x : List α)
    (hx : x ∈ parts) (hdup : ¬x.Nodup) : ¬parts.flatten.Nodup := by
  induction parts with
  | nil => cases hx
  | cons p ps ih =>
    intro hnd
    rw [List.flatten_cons] at hnd
    rcases List.mem_cons.mp hx with rfl | hx'
    · exact hdup hnd.of_append_left
    · exact ih hx' hnd.of_append_right

theorem cached_of_no_new (L : String → List String) (cache : Cache)
    (segs : List Segment) (hnw : newLemmaTexts L cache segs = [])
    (t : String) (ht : t ∈ batchLemmas L segs) :
    ∃ lid, cacheLookup t cache = some lid := by
  have := List.filter_eq_nil_iff.mp hnw t ht
  cases hlk : cacheLookup t cache with
  | none =>
    exfalso
    apply this
    rw [hlk]
    rfl
  | some lid => exact ⟨lid, rfl⟩

theorem builtRels_dup (L : String → List String) (cache : Cache)
    (segs : List Segment) (db : DB) (g : Segment) (hg : g ∈ segs)
    (hw : wholeSeconds g) (hdup : ¬(L g.text).Nodup)
    (hnw : newLemmaTexts L cache segs = []) :
    ¬ (builtRels L cache segs (insertSubtitles segs db).subtitles).Nodup := by
  obtain ⟨t, htdup⟩ := List.exists_duplicate_iff_not_nodup.mpr hdup
  have htmem : t ∈ L g.text := htdup.mem
  have htb : t ∈ batchLemmas L segs := by
    apply List.mem_dedup.mpr
    apply List.mem_flatten.mpr
    exact ⟨L g.text, List.mem_map.mpr ⟨g, hg, rfl⟩, htmem⟩
  obtain ⟨lid, hlk⟩ := cached_of_no_new L cache segs hnw t htb
  apply not_nodup_flatten_of_mem _
    (segRels L cache segs (insertSubtitles segs db).subtitles g)
  · exact List.mem_map.mpr ⟨g, hg, rfl⟩
  · exact segRels_dup L cache segs _ g (segSubId_isSome segs db g hg hw) t htdup lid hlk

theorem mkSubRows_map_natKey (segs : List Segment) :
    ∀ n : Nat, (∀ g ∈ segs, wholeSeconds g) →
      (mkSubRows n segs).map natKey = segs.map segKey := by
  induction segs with
  | nil =>
    intro n _
    rfl
  | cons g gs ih =>
    intro n hw
    simp only [mkSubRows, List.map_cons,
      ih (n + 1) (fun g' hg' => hw g' (List.mem_cons_of_mem _ hg'))]
    rw [natKey_mkSubRow g n (hw g (List.mem_cons_self _ _))]

theorem lookupSubIdLast_append (k : String × Int × Int × Int) :
    ∀ xs ys : List Subtitle,
      lookupSubIdLast k (xs ++ ys) =
        match lookupSubIdLast k ys with
        | some i => some i
        | none => lookupSubIdLast k xs := by
  intro xs ys
  induction xs with
  | nil =>
    cases hys : lookupSubIdLast k ys with
    | some i => simp [hys]
    | none => simp [hys, lookupSubIdLast]
  | cons x xs ih =>
    have hstep : lookupSubIdLast k ((x :: xs) ++ ys) =
        match lookupSubIdLast k (xs ++ ys) with
        | some i => some i
        | none => if natKey x = k then some x.id else none := rfl
    rw [hstep, ih]
    cases lookupSubIdLast k ys with
    | some i => rfl
    | none => rfl

theorem lookupSubIdLast_eq_none (k : String × Int × Int × Int) :
    ∀ rows : List Subtitle, (∀ s ∈ rows, natKey s ≠ k) →
      lookupSubIdLast k rows = none := by
  intro rows
  induction rows with
  | nil => intro _; rfl
  | cons s rest ih =>
    intro h
    unfold lookupSubIdLast
    rw [ih (fun r hr => h r (List.mem_cons_of_mem _ hr))]
    rw [if_neg (h s (List.mem_cons_self _ _))]

theorem mkSubRows_lookup (segs : List Segment) :
    ∀ (n i : Nat) (hi : i < segs.length), (∀ g ∈ segs, wholeSeconds g) →
      (segs.map segKey).Nodup →
      lookupSubIdLast (segKey (segs.get ⟨i, hi⟩)) (mkSubRows n segs) =
        some (n + i) := by
  induction segs with
  | nil =>
    intro n i hi
    cases hi
  | cons g gs ih =>
    intro n i hi hw hnd
    have hwtail : ∀ g' ∈ gs, wholeSeconds g' :=
      fun g' hg' => hw g' (List.mem_cons_of_mem _ hg')
    rw [List.map_cons, List.nodup_cons] at hnd
    cases i with
    | zero =>
      have hnone : lookupSubIdLast (segKey g) (mkSubRows (n + 1) gs) = none := by
        apply lookupSubIdLast_eq_none
        intro r hr hkey
        apply hnd.1
        rw [← hkey]
        have : natKey r ∈ (mkSubRows (n + 1) gs).map natKey := List.mem_map_of_mem _ hr
        rw [mkSubRows_map_natKey gs (n + 1) hwtail] at this
        exact this
      show lookupSubIdLast (segKey g) (mkSubRows n (g :: gs)) = some n
      unfold mkSubRows lookupSubIdLast
      rw [hnone]
      rw [if_pos (natKey_mkSubRow g n (hw g (List.mem_cons_self _ _)))]
    | succ j =>
      have hj : j < gs.length := Nat.lt_of_succ_lt_succ hi
      have hget : (g :: gs).get ⟨j + 1, hi⟩ = gs.get ⟨j, hj⟩ := rfl
      rw [hget]
      show lookupSubIdLast (segKey (gs.get ⟨j, hj⟩)) (mkSubRows n (g :: gs)) =
        some (n + (j + 1))
      unfold mkSubRows lookupSubIdLast
      rw [ih (n + 1) j hj hwtail hnd.2]
      have : n + 1 + j = n + (j + 1) := by omega
      rw [this]

theorem mkSubRows_mem_text (segs : List Segment) :
    ∀ (n : Nat) (r : Subtitle), r ∈ mkSubRows n segs →
      ∃ g ∈ segs, r.text = g.text := by
  induction segs with
  | nil =>
    intro n r hr
    cases hr
  | cons g gs ih =>
    intro n r hr
    rcases List.mem_cons.mp hr with rfl | hr'
    · exact ⟨g, List.mem_cons_self _ _, rfl⟩
    · obtain ⟨g', hg', ht⟩ := ih (n + 1) r hr'
      exact ⟨g', List.mem_cons_of_mem _ hg', ht⟩

theorem fetchSubs_mkSubRows (segs : List Segment) (n : Nat) :
    fetchSubs segs (mkSubRows n segs) = mkSubRows n segs := by
  apply List.filter_eq_self.mpr
  intro r hr
  obtain ⟨g, hg, ht⟩ := mkSubRows_mem_text segs n r hr
  apply List.any_eq_true.mpr
  refine ⟨g, hg, ?_⟩
  rw [ht]
  exact beq_self_eq_true _

theorem segSubId_distinct_keys (segs : List Segment) (db : DB)
    (hw : ∀ g ∈ segs, wholeSeconds g)
    (hkeys : (segs.map segKey).Nodup) (i : Nat) (hi : i < segs.length) :
    segSubId segs (insertSubtitles segs db).subtitles (segs.get ⟨i, hi⟩) =
      some (db.nextSubId + i) := by
  unfold segSubId
  show lookupSubIdLast (segKey (segs.get ⟨i, hi⟩))
      (fetchSubs segs (db.subtitles ++ mkSubRows db.nextSubId segs)) = _
  unfold fetchSubs
  rw [List.filter_append]
  have hnew : (mkSubRows db.nextSubId segs).filter
      (fun s => segs.any (fun g => g.text == s.text)) =
      mkSubRows db.nextSubId segs := fetchSubs_mkSubRows segs db.nextSubId
  rw [hnew, lookupSubIdLast_append,
    mkSubRows_lookup segs db.nextSubId i hi hw hkeys]

theorem mkSubRows_getElem (segs : List Segment) :
    ∀ (n i : Nat) (hi : i < segs.length),
      (mkSubRows n segs)[i]? = some
        ⟨n + i, (segs.get ⟨i, hi⟩).text, (segs.get ⟨i, hi⟩).episode_number,
          msTrunc (segs.get ⟨i, hi⟩).starts_at,
          msTrunc (segs.get ⟨i, hi⟩).ends_at⟩ := by
  induction segs with
  | nil =>
    intro n i hi
    cases hi
  | cons g gs ih =>
    intro n i hi
    cases i with
    | zero =>
      show (List.cons
          ⟨n, g.text, g.episode_number, msTrunc g.starts_at, msTrunc g.ends_at⟩
          (mkSubRows (n + 1) gs))[0]? = _
      rw [List.getElem?_cons_zero]
      exact rfl
    | succ j =>
      have hj : j < gs.length := Nat.lt_of_succ_lt_succ hi
      have hget : (g :: gs).get ⟨j + 1, hi⟩ = gs.get ⟨j, hj⟩ := rfl
      rw [hget]
      have hcons : (mkSubRows n (g :: gs))[j + 1]? = (mkSubRows (n + 1) gs)[j]? := by
        show (List.cons
            ⟨n, g.text, g.episode_number, msTrunc g.starts_at, msTrunc g.ends_at⟩
            (mkSubRows (n + 1) gs))[j + 1]? = _
        rw [List.getElem?_cons_succ]
      rw [hcons, ih (n + 1) j hj]
      have harith : n + 1 + j = n + (j + 1) := by omega
      rw [harith]

/-! ### Claim theorems -/

/-- C10: `reset()` is idempotent as a full-reinitialization primitive:
applying it twice equals applying it once, and after a reset the store is
schema-valid and empty, with every frequency (vacuously) zero. -/
theorem reset_db_idempotent (db : DB) :
    reset_db (reset_db db) = reset_db db ∧
    (reset_db db).tablesExist = true ∧
    (reset_db db).subtitles = [] ∧
    (reset_db db).lemmas = [] ∧
    (reset_db db).rels = [] ∧
    ∀ l ∈ (reset_db db).lemmas, l.frequency = 0 := by
  refine ⟨rfl, rfl, rfl, rfl, rfl, ?_⟩
  intro l hl
  simp [reset_db] at hl

theorem reset_db_idempotent_witness :
    reset_db (reset_db db0) = reset_db db0 := (reset_db_idempotent db0).1

/-- C5: contrary to the claim, the persisted `definition` column is NOT
nullable (`pw.TextField()` defaults to `null=False`), so the bulk insert of
new lemmas, which supplies only the lemma text, hits the NOT NULL branch and
the flush of a batch with one fresh lemma fails and rolls back. -/
theorem lemma_insert_hits_not_null :
    lemmaDefinitionNullable = false ∧
    (process exNlp exPick procHola freshDB).error = some .notNull ∧
    (process exNlp exPick procHola freshDB).db = freshDB := by
  exact ⟨rfl, by decide, by decide⟩

/-- C3: the spec's repeat-flush scenario is unreachable in the code: the
first flush of the two scenario segments on a fresh store already fails with
the NOT NULL violation on `lemma.definition`, leaving the store empty, so no
state with the four lemmas at frequency 1 (let alone 2) is ever produced. -/
theorem scenario_first_flush_raises :
    (process exNlp exPick procScenario freshDB).error = some .notNull ∧
    (process exNlp exPick procScenario freshDB).db = freshDB ∧
    (process exNlp exPick procScenario freshDB).db.lemmas = [] := by
  refine ⟨by decide, by decide, by decide⟩

/-- C7 counterexample: when the lemma cache fails to load (schema absent),
`process` raises before entering the try/finally block, and the accumulator
buffer is NOT cleared — it still holds the two buffered segments. -/
theorem failed_cache_load_keeps_buffer :
    (process exNlp exPick procScenario db0).error = some .cacheLoad ∧
    (process exNlp exPick procScenario db0).proc.subtitles_data =
      procScenario.subtitles_data ∧
    procScenario.subtitles_data ≠ [] := by
  refine ⟨by decide, by decide, by decide⟩

/-- C7 (amended): after every `process()` call in which the lemma cache was
already loaded or loads successfully, the accumulator buffer is empty —
whether the commit succeeds or raises.  (The cache-load failure path, which
runs before the try/finally, retains the buffer; see the counterexample.) -/
theorem accumulator_cleared_when_cache_available (L : String → List String)
    (pick : List Nat → Nat) (p : Processor) (db : DB)
    (h : p.lemma_cache.isSome ∨ db.tablesExist = true) :
    (process L pick p db).proc.subtitles_data = [] := by
  unfold process
  cases hc : p.lemma_cache with
  | some c => exact processLoaded_buffer ..
  | none =>
    rcases hl : loadCache db with e | c
    · exfalso
      rcases h with h | h
      · simp [hc] at h
      · simp [loadCache, h] at hl
    · exact processLoaded_buffer ..

theorem accumulator_cleared_witness :
    (process exNlp exPick procScenario dbPre).proc.subtitles_data = [] :=
  accumulator_cleared_when_cache_available exNlp exPick procScenario dbPre
    (Or.inr rfl)

/-- C1: if a flush fails (in particular mid-commit), the store is rolled
back — no lemma, subtitle, or relation row from the batch persists — and the
lemma cache ends up holding only entries that either pre-existed in the
cache or correspond to lemma rows already committed in the store before the
flush; in particular it holds no lemma id inserted during the failed
transaction, and a cache that was already loaded is left unchanged. -/
theorem flush_failure_rolls_back (L : String → List String)
    (pick : List Nat → Nat) (p : Processor) (db : DB)
    (h : (process L pick p db).error.isSome) :
    (process L pick p db).db = db ∧
    (∀ c0, p.lemma_cache = some c0 →
      (process L pick p db).proc.lemma_cache = some c0) ∧
    (∀ c t lid, (process L pick p db).proc.lemma_cache = some c → (t, lid) ∈ c →
      (∃ l ∈ db.lemmas, l.text = t ∧ l.id = lid) ∨
      (∃ c0, p.lemma_cache = some c0 ∧ (t, lid) ∈ c0)) := by
  unfold process at h ⊢
  cases hc : p.lemma_cache with
  | some c0 =>
    rw [hc] at h
    obtain ⟨hdb, hcache⟩ := processLoaded_error_state L pick p db h
    refine ⟨hdb, ?_, ?_⟩
    · intro c1 hc1
      have hcc : c0 = c1 := Option.some.inj hc1
      rw [hcache, hc, hcc]
      rfl
    · intro c t lid hpc hmem
      right
      refine ⟨c0, rfl, ?_⟩
      rw [hcache, hc] at hpc
      have hcc : c0 = c := Option.some.inj hpc
      rw [hcc]
      exact hmem
  | none =>
    rw [hc] at h
    rcases hl : loadCache db with e | cl
    all_goals rw [hl] at h
    · refine ⟨rfl, ?_, ?_⟩
      · intro c0 hc0
        exact Option.noConfusion hc0
      · intro c t lid hpc hmem
        have hpc' : p.lemma_cache = some c := hpc
        rw [hc] at hpc'
        exact Option.noConfusion hpc'
    · have hcl : cl = db.lemmas.map (fun l => (l.text, l.id)) := by
        unfold loadCache at hl
        by_cases ht : db.tablesExist = true
        · rw [ht] at hl
          simp at hl
          exact hl.symm
        · simp only [Bool.not_eq_true] at ht
          rw [ht] at hl
          simp at hl
      obtain ⟨hdb, hcache⟩ :=
        processLoaded_error_state L pick { p with lemma_cache := some cl } db h
      refine ⟨hdb, ?_, ?_⟩
      · intro c0 hc0
        exact Option.noConfusion hc0
      · intro c t lid hpc hmem
        left
        rw [hcache] at hpc
        have hcc : cl = c := by
          have : (Processor.mk p.subtitles_data (some cl)).lemma_cache.getD [] = cl := rfl
          rw [this] at hpc
          exact Option.some.inj hpc
        rw [← hcc, hcl] at hmem
        obtain ⟨l, hlmem, hleq⟩ := List.mem_map.mp hmem
        refine ⟨l, hlmem, ?_, ?_⟩
        · exact congrArg Prod.fst hleq
        · exact congrArg Prod.snd hleq

theorem flush_failure_rolls_back_witness :
    (process exNlp exPick procPerroDupLemma dbPerro).db = dbPerro :=
  (flush_failure_rolls_back exNlp exPick procPerroDupLemma dbPerro (by decide)).1

/-- C9: `lemmatize_batch` returns one output list per input text in input
order, and every string of each output list is the lower-cased lemma of an
alphabetic, non-stop-word, non-punctuation token of the corresponding input
text. -/
theorem lemmatize_batch_spec (nlp : String → List Token) (texts : List String) :
    (lemmatize_batch nlp texts).length = texts.length ∧
    ∀ (i : Nat) (out : List String), (lemmatize_batch nlp texts)[i]? = some out →
      ∃ t, texts[i]? = some t ∧ out = lemmatizeDoc (nlp t) ∧
        ∀ s ∈ out, ∃ tok ∈ nlp t,
          tok.is_alpha = true ∧ tok.is_stop = false ∧ tok.is_punct = false ∧
          s = tok.lemmaText.toLower := by
  constructor
  · simp [lemmatize_batch]
  · intro i out hout
    unfold lemmatize_batch at hout
    rw [List.getElem?_map] at hout
    cases ht : texts[i]? with
    | none => rw [ht] at hout; cases hout
    | some t =>
      rw [ht] at hout
      have hout' : lemmatizeDoc (nlp t) = out := Option.some.inj hout
      subst hout'
      refine ⟨t, rfl, rfl, ?_⟩
      intro s hs
      unfold lemmatizeDoc at hs
      obtain ⟨tok, htok, hlem⟩ := List.mem_map.mp hs
      obtain ⟨hmem, hpred⟩ := List.mem_filter.mp htok
      simp only [Bool.and_eq_true, Bool.not_eq_true'] at hpred
      exact ⟨tok, hmem, hpred.1.1, hpred.1.2, hpred.2, hlem.symm⟩

/-- A concrete spaCy-like tokenization used to witness C9. -/
def exTok : String → List Token := fun t =>
  if t = "Le Chat mange" then
    [⟨"le", true, true, false⟩, ⟨"Chat", true, false, false⟩,
     ⟨"manger", true, false, false⟩]
  else []

theorem updateCards_rels (ups : List (Nat × Nat)) (db : DB) :
    (updateCards ups db).rels = db.rels := rfl

theorem insertSubtitles_rels (segs : List Segment) (db : DB) :
    (insertSubtitles segs db).rels = db.rels := rfl

/-- C6: after every flush, a lemma row whose `card_subtitle` is set has a
relation row linking it to that subtitle; moreover, on a successful flush,
every lemma row that gained a relation row in the batch has its
`card_subtitle` unconditionally overwritten with a subtitle drawn from the
relation rows inserted in that very batch. -/
theorem card_subtitle_always_linked (L : String → List String)
    (pick : List Nat → Nat) (p : Processor) (db : DB)
    (hpick : ∀ ns : List Nat, ns ≠ [] → pick ns ∈ ns)
    (hinv : cardInv db) :
    cardInv (process L pick p db).db ∧
    ((process L pick p db).error = none →
      ∀ l ∈ (process L pick p db).db.lemmas,
        (∃ q ∈ (process L pick p db).db.rels, q.lemma_id = l.id ∧ q ∉ db.rels) →
        ∃ sid, l.card_subtitle = some sid ∧
          (⟨sid, l.id⟩ : SubtitleLemma) ∈ (process L pick p db).db.rels ∧
          (⟨sid, l.id⟩ : SubtitleLemma) ∉ db.rels) := by
  rcases process_cases L pick p db with ⟨hdb, _⟩ | ⟨cache, db2, _, _, hok, hdb⟩
  · constructor
    · rw [hdb]
      exact hinv
    · rintro _ l _ ⟨q, hq, _, hqnew⟩
      rw [hdb] at hq
      exact absurd hq hqnew
  · have hrels2 : db2.rels = db.rels ++
        builtRels L cache p.subtitles_data
          (insertSubtitles p.subtitles_data db).subtitles :=
      insertRels_ok_rels _ (insertSubtitles p.subtitles_data db) db2 hok
    have hdisj : ∀ q ∈ builtRels L cache p.subtitles_data
        (insertSubtitles p.subtitles_data db).subtitles, q ∉ db.rels :=
      insertRels_ok_disjoint _ (insertSubtitles p.subtitles_data db) db2 hok
    constructor
    · intro l' hl' sid hsid
      rw [hdb] at hl' ⊢
      rw [updateCards_rels, hrels2]
      unfold updateCards at hl'
      obtain ⟨l2, hl2, heq⟩ := List.mem_map.mp hl'
      cases hlk : lookupNat l2.id
          (cardUpdates pick cache (batchLemmas L p.subtitles_data)
            (builtRels L cache p.subtitles_data
              (insertSubtitles p.subtitles_data db).subtitles)) with
      | some sid2 =>
        rw [hlk] at heq
        subst heq
        have hsid2 : sid2 = sid := Option.some.inj hsid
        subst hsid2
        obtain ⟨hne, hpicked⟩ :=
          mem_cardUpdatesFor _ _ _ _ _ (lookupNat_mem _ _ _ hlk)
        apply List.mem_append_right
        rw [hpicked]
        exact subsFor_mem _ _ _ (hpick _ hne)
      | none =>
        rw [hlk] at heq
        subst heq
        obtain ⟨l1, hl1, hid, hcard⟩ := insertRels_ok_lemmas_card _ _ _ hok l2 hl2
        rw [hcard] at hsid
        have hmem : (⟨sid, l1.id⟩ : SubtitleLemma) ∈ db.rels := hinv l1 hl1 sid hsid
        apply List.mem_append_left
        rw [hid]
        exact hmem
    · rintro _ l' hl' ⟨q, hq, hql, hqnew⟩
      rw [hdb] at hl' hq
      rw [updateCards_rels, hrels2] at hq
      have hqrels : q ∈ builtRels L cache p.subtitles_data
          (insertSubtitles p.subtitles_data db).subtitles := by
        rcases List.mem_append.mp hq with hq' | hq'
        · exact absurd hq' hqnew
        · exact hq'
      unfold updateCards at hl'
      obtain ⟨l2, hl2, heq⟩ := List.mem_map.mp hl'
      have hid2 : q.lemma_id = l2.id := by
        cases hlk2 : lookupNat l2.id
            (cardUpdates pick cache (batchLemmas L p.subtitles_data)
              (builtRels L cache p.subtitles_data
                (insertSubtitles p.subtitles_data db).subtitles)) with
        | some sid2 =>
          rw [hlk2] at heq
          subst heq
          exact hql
        | none =>
          rw [hlk2] at heq
          subst heq
          exact hql
      obtain ⟨t, htb, htlk⟩ := builtRels_lemma_id _ _ _ _ _ hqrels
      have hids : l2.id ∈
          ((batchLemmas L p.subtitles_data).filterMap
            (fun t => cacheLookup t cache)).dedup := by
        apply List.mem_dedup.mpr
        apply List.mem_filterMap.mpr
        rw [← hid2]
        exact ⟨t, htb, htlk⟩
      have hsub : q.subtitle_id ∈ subsFor l2.id
          (builtRels L cache p.subtitles_data
            (insertSubtitles p.subtitles_data db).subtitles) := by
        rw [← hid2]
        exact mem_subsFor _ _ hqrels
      have hne : subsFor l2.id
          (builtRels L cache p.subtitles_data
            (insertSubtitles p.subtitles_data db).subtitles) ≠ [] :=
        List.ne_nil_of_mem hsub
      have hlk : lookupNat l2.id
          (cardUpdates pick cache (batchLemmas L p.subtitles_data)
            (builtRels L cache p.subtitles_data
              (insertSubtitles p.subtitles_data db).subtitles)) =
          some (pick (subsFor l2.id
            (builtRels L cache p.subtitles_data
              (insertSubtitles p.subtitles_data db).subtitles))) :=
        lookup_cardUpdatesFor _ _ _ _ (List.nodup_dedup _) hids hne
      rw [hlk] at heq
      subst heq
      refine ⟨pick (subsFor l2.id
          (builtRels L cache p.subtitles_data
            (insertSubtitles p.subtitles_data db).subtitles)), rfl, ?_, ?_⟩
      · rw [hdb, updateCards_rels, hrels2]
        apply List.mem_append_right
        exact subsFor_mem _ _ _ (hpick _ hne)
      · exact hdisj _ (subsFor_mem _ _ _ (hpick _ hne))

theorem card_subtitle_always_linked_witness :
    cardInv (process exNlp exPick procScenario dbPre).db := by
  apply (card_subtitle_always_linked exNlp exPick procScenario dbPre ?_ ?_).1
  · intro ns hns
    cases ns with
    | nil => exact absurd rfl hns
    | cons a t => exact List.mem_cons_self a t
  · intro l hl sid hsid
    fin_cases hl <;> exact Option.noConfusion hsid

/-- C2 counterexample: with two textually and temporally identical segments
in one flush, the natural-key re-query dictionary collapses both to the id
of the LAST inserted row: the rows inserted for the two segments have ids 1
and 2, yet both relation rows built in step 5 carry subtitle id 2 — so the
first segment's relation row does not use the id of the row inserted for it,
and the flush then fails on the duplicated composite key.  (The cache used
by the flush is exactly the one loaded from the store.) -/
theorem natural_key_requery_counterexample :
    builtRels exNlp [("perro", 1)] procPerroTwice.subtitles_data
      (insertSubtitles procPerroTwice.subtitles_data dbPerro).subtitles =
      [⟨2, 1⟩, ⟨2, 1⟩] ∧
    (insertSubtitles procPerroTwice.subtitles_data dbPerro).subtitles.map
      (fun s => s.id) = [1, 2] ∧
    loadCache dbPerro = .ok [("perro", 1)] ∧
    (process exNlp exPick procPerroTwice dbPerro).error = some .duplicateKey := by
  refine ⟨by decide, by decide, by rfl, by decide⟩

/-- C2 (amended): subtitle identifiers are recovered by re-querying the
store on the natural key (text, episode, start, end), with the last-fetched
(newest) matching row taking precedence, and the stored `IntegerField`
offsets are the buffered millisecond values truncated to whole seconds.
When every segment's offsets are whole seconds (so each stored key compares
equal to its buffered key) and the segments' natural keys are pairwise
distinct, the resolution assigns segment `i` the id of the row actually
inserted for it (`nextSubId + i`), so every relation row built in step 5
uses its own segment's id.  Otherwise the re-query misbehaves: identical
segments collapse to the last id and fail the flush (see the
counterexample), and non-whole-second offsets make the lookup miss or hit a
different segment's truncation-collided row. -/
theorem relation_rows_use_own_ids_when_keys_distinct (L : String → List String)
    (cache : Cache) (segs : List Segment) (db : DB)
    (hw : ∀ g ∈ segs, wholeSeconds g)
    (hkeys : (segs.map segKey).Nodup) (i : Nat) (hi : i < segs.length) :
    segSubId segs (insertSubtitles segs db).subtitles (segs.get ⟨i, hi⟩) =
      some (db.nextSubId + i) ∧
    (mkSubRows db.nextSubId segs)[i]? = some
      ⟨db.nextSubId + i, (segs.get ⟨i, hi⟩).text,
        (segs.get ⟨i, hi⟩).episode_number,
        msTrunc (segs.get ⟨i, hi⟩).starts_at,
        msTrunc (segs.get ⟨i, hi⟩).ends_at⟩ ∧
    ∀ q ∈ segRels L cache segs (insertSubtitles segs db).subtitles
        (segs.get ⟨i, hi⟩),
      q.subtitle_id = db.nextSubId + i := by
  refine ⟨segSubId_distinct_keys segs db hw hkeys i hi,
    mkSubRows_getElem segs db.nextSubId i hi, ?_⟩
  intro q hq
  unfold segRels at hq
  rw [segSubId_distinct_keys segs db hw hkeys i hi] at hq
  obtain ⟨t, _, hteq⟩ := List.mem_filterMap.mp hq
  cases hlk : cacheLookup t cache with
  | none =>
    rw [hlk] at hteq
    cases hteq
  | some lid =>
    rw [hlk] at hteq
    have hqe := Option.some.inj hteq
    rw [← hqe]

theorem relation_rows_use_own_ids_witness :
    segSubId procScenario.subtitles_data
      (insertSubtitles procScenario.subtitles_data dbPre).subtitles
      (procScenario.subtitles_data.get ⟨0, by decide⟩) =
      some (dbPre.nextSubId + 0) :=
  (relation_rows_use_own_ids_when_keys_distinct exNlp [("chat", 1)]
    procScenario.subtitles_data dbPre (by decide) (by decide) 0 (by decide)).1

/-- C8 counterexample: a flush containing a segment whose lemma list repeats
`perro` — but whose offsets are 0.5s/1.5s, not whole seconds — does NOT
raise: the `IntegerField` truncation stores its offsets as 0/1, the
natural-key lookup for the buffered 0.5/1.5 values misses, the segment's
relation rows are dropped (`dropna`), and the flush commits with a changed
store (the other segment's relation row is persisted). -/
theorem duplicate_lemma_segment_commits :
    (⟨"perro perro", 1, 500, 1500⟩ : Segment) ∈ procMixedDup.subtitles_data ∧
    ¬(exNlp "perro perro").Nodup ∧
    (process exNlp exPick procMixedDup dbPG).error = none ∧
    (process exNlp exPick procMixedDup dbPG).db ≠ dbPG ∧
    (process exNlp exPick procMixedDup dbPG).db.rels = [⟨2, 2⟩] := by
  refine ⟨by decide, by decide, by decide, by decide, by decide⟩

/-- C8 (amended): if some buffered segment's lemmatized token list repeats a
lemma AND that segment's offsets are whole seconds — so its stored row
compares equal to its buffered natural key and the lookup resolves — then
the relation bulk-insert is reached with two rows carrying the same
(subtitle, lemma) composite key: the flush raises and the transaction rolls
back, leaving the store unchanged; and whenever step 5 is reached (no new
lemma texts relative to the cache), the relation list built for the bulk
insert indeed repeats a composite key.  (For non-whole-second offsets the
truncated stored key misses, the segment's relation rows are silently
dropped, and the flush can commit — see the counterexample.) -/
theorem duplicate_lemma_occurrence_fails (L : String → List String)
    (pick : List Nat → Nat) (p : Processor) (db : DB) (g : Segment)
    (hg : g ∈ p.subtitles_data) (hw : wholeSeconds g)
    (hdup : ¬(L g.text).Nodup) :
    (process L pick p db).error.isSome ∧
    (process L pick p db).db = db ∧
    ∀ cache : Cache, newLemmaTexts L cache p.subtitles_data = [] →
      ¬ (builtRels L cache p.subtitles_data
          (insertSubtitles p.subtitles_data db).subtitles).Nodup := by
  have hmech : ∀ cache : Cache, newLemmaTexts L cache p.subtitles_data = [] →
      ¬ (builtRels L cache p.subtitles_data
          (insertSubtitles p.subtitles_data db).subtitles).Nodup :=
    fun cache hnw => builtRels_dup L cache p.subtitles_data db g hg hw hdup hnw
  rcases process_cases L pick p db with ⟨hdb, herr⟩ | ⟨cache, db2, _, hnw, hok, _⟩
  · rcases herr with herr | hemp
    · exact ⟨herr, hdb, hmech⟩
    · rw [hemp] at hg
      cases hg
  · exact absurd hok (insertRels_error_of_dup _ (hmech cache hnw) _ db2)

theorem duplicate_lemma_occurrence_fails_witness :
    (process exNlp exPick procPerroDupLemma dbPerro).error.isSome ∧
    (process exNlp exPick procPerroDupLemma dbPerro).db = dbPerro := by
  have h := duplicate_lemma_occurrence_fails exNlp exPick procPerroDupLemma dbPerro
    ⟨"perro perro", 1, 0, 1000⟩ (by decide) (by decide) (by decide)
  exact ⟨h.1, h.2.1⟩

/-- C4: the frequency invariant — every lemma row's `frequency` equals the
number of relation rows referencing it — is preserved by every flush
(successful or rolled back), and it is maintained incrementally: each single
relation insert appends exactly one relation row and bumps exactly the
referenced lemma's counter by one (the `increment_frequency` trigger), with
no full recomputation pass anywhere in the flush. -/
theorem frequency_counter_invariant (L : String → List String)
    (pick : List Nat → Nat) (p : Processor) (db : DB) (hinv : freqInv db) :
    freqInv (process L pick p db).db ∧
    ∀ (d : DB) (q : SubtitleLemma) (d' : DB), insertRel d q = .ok d' →
      d'.rels = d.rels ++ [q] ∧
      d'.lemmas = incrementFrequency q.lemma_id d.lemmas := by
  constructor
  · rcases process_cases L pick p db with ⟨hdb, _⟩ | ⟨cache, db2, _, _, hok, hdb⟩
    · rw [hdb]
      exact hinv
    · rw [hdb]
      apply freqInv_updateCards
      apply freqInv_insertRels _ _ _ hok
      exact hinv
  · intro d q d' h
    obtain ⟨_, h1, h2, _⟩ := insertRel_ok d q d' h
    exact ⟨h1, h2⟩

theorem frequency_counter_invariant_witness :
    freqInv (process exNlp exPick procScenario dbPre).db :=
  (frequency_counter_invariant exNlp exPick procScenario dbPre (by decide)).1

theorem lemmatize_batch_spec_witness :
    ∃ t, (["Le Chat mange"] : List String)[0]? = some t ∧
      lemmatizeDoc (exTok "Le Chat mange") = lemmatizeDoc (exTok t) ∧
      ∀ s ∈ lemmatizeDoc (exTok "Le Chat mange"), ∃ tok ∈ exTok t,
        tok.is_alpha = true ∧ tok.is_stop = false ∧ tok.is_punct = false ∧
        s = tok.lemmaText.toLower :=
  (lemmatize_batch_spec exTok ["Le Chat mange"]).2 0
    (lemmatizeDoc (exTok "Le Chat mange")) rfl

end ImmersionWhisper
